import Mathlib

/-!
Verification of the clidle word-guessing game (clidle.c) and its string-view
library (sv.h) against their natural-language specification.

Modelling conventions:
* a string view's byte content is a `List Char`; operations that only move the
  `ptr`/`len` pair without reading bytes are modelled on the numbers themselves;
* `size_t` arithmetic wraps modulo `2 ^ 64`; the wrap is written explicitly
  wherever the C expression can overflow;
* the global mutable state of `clidle.c` (the `alphabet` array, the attempt
  counter `i` of `main`) is threaded explicitly through a `Session` record.
-/

namespace Clidle

/-- Word size of `size_t` on the 64-bit targets the program is built for. -/
def SIZE_T_MOD : Nat := 2 ^ 64

/-- Constant `SV_END_POS` from sv.h: `SIZE_MAX`, the not-found / to-end sentinel. -/
def SV_END_POS : Nat := 2 ^ 64 - 1

/-- Constant `GUESSES` from clidle.c: the number of allowed guesses. -/
def GUESSES : Nat := 6

/-- Constant `LETTERS` from clidle.c: the word length. -/
def LETTERS : Nat := 5

/-- Constant `ALPHABET_SZ` from clidle.c. -/
def ALPHABET_SZ : Nat := 26

/-- Constant `ASCII_A` (0x61) from clidle.c. -/
def ASCII_A : Nat := 0x61

/-- Enumeration `GuessQuality` from clidle.c. -/
inductive GuessQuality where
  | RightPlace
  | WrongPlace
  | Wrong
  | Unknown
deriving DecidableEq, Repr

/-- Function `qualify_guess` from clidle.c.  With `c = guess[index]` the C code
returns `RightPlace` when `solution.ptr[index] == c`, otherwise scans
`i = 0 .. LETTERS-1` and returns `WrongPlace` at the first `i` with
`solution.ptr[i] == c && guess[i] != c`, otherwise `Wrong`.  The scan is
modelled by `List.any` over `List.range LETTERS`, which agrees with the
early-exit loop.  Reads are modelled with `List.getD`; for the length-5 words
of the game every read is in bounds. -/
def qualify_guess (solution guess : List Char) (index : Nat) : GuessQuality :=
  if solution.getD index default = guess.getD index default then
    GuessQuality.RightPlace
  else if ((List.range LETTERS).any (fun i =>
      solution.getD i default == guess.getD index default
        && guess.getD i default != guess.getD index default)) = true then
    GuessQuality.WrongPlace
  else
    GuessQuality.Wrong

/-- Function `overrides` from clidle.c.  The C function begins with
`assert(new != Unknown)`; the assert is a runtime check and does not alter the
value computed, so it is not part of the function's value here. -/
def overrides (orig new : GuessQuality) : Bool :=
  if orig = GuessQuality.RightPlace then false
  else if orig = GuessQuality.Unknown ∨ orig = GuessQuality.Wrong then true
  else if orig = GuessQuality.WrongPlace ∧ new = GuessQuality.RightPlace then true
  else false

/-- Rank of a quality in the spec's priority order
Unknown < Wrong < WrongPlace < RightPlace. -/
def qualityRank : GuessQuality → Nat
  | GuessQuality.Unknown => 0
  | GuessQuality.Wrong => 1
  | GuessQuality.WrongPlace => 2
  | GuessQuality.RightPlace => 3

/-- One conditional overwrite of a stored quality, as performed by
`color_word_and_update_alphabet` in clidle.c:
`if (overrides(old, q)) alphabet[..].quality = q;`. -/
def applyOverride (orig new : GuessQuality) : GuessQuality :=
  if overrides orig new then new else orig

/-- Function `sv_substr` from sv.h.  The function never reads bytes: it only
computes the result's `ptr` offset and `len` from `beg`, `len` and `in.len`,
so it is modelled on the numbers.  The result is the pair
`(offset of ret.ptr from in.ptr, ret.len)`; the C code's `sv ret = {0}`
(a NULL view of length 0, referencing no bytes) is modelled as `(0, 0)`.
All three quantities are `size_t`, so the C expression `beg + len` wraps
modulo `2 ^ 64`; the wrap is written explicitly. -/
def sv_substr (beg len inLen : Nat) : Nat × Nat :=
  if len = 0 ∨ beg > inLen then (0, 0)
  else if len = SV_END_POS ∨ (beg + len) % SIZE_T_MOD > inLen then (beg, inLen - beg)
  else (beg, len)

/-- Function `sv_last_idx` from sv.h, descending-index loop.
`lastIdxFrom c s i` is the loop `for (; i < s.len; i--)` entered at index `i`:
if `i` is in range and `s[i] = c` the index is returned; at `i = 0` the C
decrement wraps to `SIZE_MAX`, which is `≥ s.len` for every `size_t` length,
so the loop exits with `SV_END_POS`. -/
def lastIdxFrom (c : Char) (s : List Char) : Nat → Nat
  | 0 =>
    if h : 0 < s.length then
      if s.get ⟨0, h⟩ = c then 0 else SV_END_POS
    else SV_END_POS
  | i + 1 =>
    if h : i + 1 < s.length then
      if s.get ⟨i + 1, h⟩ = c then i + 1 else lastIdxFrom c s i
    else SV_END_POS

/-- Function `sv_last_idx` from sv.h.  The loop starts at `i = sv.len - 1`;
when `sv.len = 0` that initial value is the wrapped `SIZE_MAX`, the guard
`i < sv.len` fails at once and no byte is inspected. -/
def sv_last_idx (c : Char) (s : List Char) : Nat :=
  if s.length = 0 then SV_END_POS else lastIdxFrom c s (s.length - 1)

/-- Index of the first occurrence of `delim` in the view: the C outer loop of
`sv_chop_delim`, which scans upward and stops at the first hit.  Equals
`s.length` when there is no delimiter, corresponding to the `found` flag
staying false. -/
def firstDelim (delim : Char) (s : List Char) : Nat :=
  s.findIdx (fun ch => ch == delim)

/-- Length `j` of the run of consecutive delimiters starting at the first
occurrence: the C inner loop `for (j = i; j < in->len && in->ptr[j] == delim; j++)`
followed by `j -= i`. -/
def delimRun (delim : Char) (s : List Char) : Nat :=
  ((s.drop (firstDelim delim s)).takeWhile (fun ch => ch == delim)).length

/-- Function `sv_chop_delim` from sv.h, on the byte content of the views.
`none` models the `false` return (`in->len == 0` on entry); `some (out, rest)`
models the `true` return with the written `*out` and the updated `*in`.  In
the found case the C code sets `out->len = i` (first `i` bytes, `out->ptr`
being `in->ptr`) and advances `in` by `out->len + j`; in the not-found case
`out` receives the whole view and `in->len` becomes 0. -/
def sv_chop_delim (delim : Char) (s : List Char) : Option (List Char × List Char) :=
  if s = [] then none
  else if firstDelim delim s < s.length then
    some (s.take (firstDelim delim s), s.drop (firstDelim delim s + delimRun delim s))
  else some (s, [])

/-- Repeated tokenization by `sv_chop_delim`, as performed by the corpus loops
of clidle.c (`init_words`, `choose_solution`):
`while (sv_chop_delim(delim, &in, &buf)) collect(buf);`.
The recursion is well-founded along the strict decrease of the view length on
every `true` return, which is exactly the termination argument for the C
loops. -/
def svSplit (delim : Char) (s : List Char) : List (List Char) :=
  match h : sv_chop_delim delim s with
  | none => []
  | some (out, rest) => out :: svSplit delim rest
termination_by s.length
decreasing_by
  unfold sv_chop_delim at h
  split at h
  · cases h
  · split at h
    · rename_i hnil hfound
      simp only [Option.some.injEq, Prod.mk.injEq] at h
      obtain ⟨-, hrest⟩ := h
      subst hrest
      have hpos : 0 < s.length := List.length_pos.mpr hnil
      have hrun : 1 ≤ delimRun delim s := by
        unfold delimRun
        rw [List.drop_eq_getElem_cons hfound, List.takeWhile_cons]
        have hp : (s[firstDelim delim s] == delim) = true := by
          simpa using @List.findIdx_getElem Char (fun ch => ch == delim) s hfound
        rw [hp]
        simp
      rw [List.length_drop]
      omega
    · rename_i hnil hnotfound
      simp only [Option.some.injEq, Prod.mk.injEq] at h
      obtain ⟨-, hrest⟩ := h
      subst hrest
      simpa using List.length_pos.mpr hnil

/-- Function `sv_cstr_eq` from sv.h on byte content: the views are equal when
their lengths agree and their bytes agree (`memcmp`), i.e. list equality. -/
def sv_cstr_eq (s : List Char) (cstr : List Char) : Bool :=
  s == cstr

/-- Function `valid` from clidle.c: linear scan of the word corpus with
`sv_cstr_eq`, true when any entry matches. -/
def valid (words : List (List Char)) (word : List Char) : Bool :=
  words.any (fun w => sv_cstr_eq w word)

/-- Function `check_correct` from clidle.c: `sv_cstr_eq(solution, guess)`. -/
def check_correct (solution guess : List Char) : Bool :=
  sv_cstr_eq solution guess

/-- Function `init_alphabet` from clidle.c: every entry starts at `Unknown`
(the `chr` field of `struct CharInfo` only mirrors the index and is dropped
from the model). -/
def init_alphabet : List GuessQuality :=
  List.replicate ALPHABET_SZ GuessQuality.Unknown

/-- One iteration of the scoring loop of `color_word_and_update_alphabet` in
clidle.c: compute `qualify_guess(guess, i)` and conditionally overwrite
`alphabet[(int)guess[i] - ASCII_A].quality`.  For the game's lowercase words
the index is in range; `Nat` subtraction and `getD`/`set` keep the model
total. -/
def updateStep (solution guess : List Char) (a : List GuessQuality) (i : Nat) :
    List GuessQuality :=
  if overrides (a.getD ((guess.getD i default).toNat - ASCII_A) GuessQuality.Unknown)
      (qualify_guess solution guess i) then
    a.set ((guess.getD i default).toNat - ASCII_A) (qualify_guess solution guess i)
  else a

/-- The alphabet effect of `color_word_and_update_alphabet` in clidle.c: the
loop body applied for `i = 0 .. LETTERS-1` (printing and sleeping are
presentation only). -/
def updateAlphabet (solution guess : List Char) (a : List GuessQuality) :
    List GuessQuality :=
  (List.range LETTERS).foldl (updateStep solution guess) a

/-- Mutable state of one game in clidle.c: the loop counter `i` of `main`
(number of consumed attempts) and the global `alphabet` array. -/
structure Session where
  attempt : Nat
  alphabet : List GuessQuality
deriving DecidableEq, Repr

/-- Outcome of processing one completed input line in the `main` loop. -/
inductive SubmitOutcome where
  | ignored
  | rejectedLength
  | rejectedWord
  | won
  | lost
  | continued
deriving DecidableEq, Repr

/-- One iteration of the `main` loop of clidle.c on a completed input line,
in source order: an empty line is ignored (`i -= 1; continue;`); a line of
wrong length is rejected with `misinput("Wrong length")` and `i -= 1`; a line
not in the corpus is rejected with `misinput("Not in word list")` and
`i -= 1`; otherwise the guess is scored and the alphabet updated, then on
`check_correct` the program returns (won), else the attempt is consumed and
the game is lost when it was the last one (`i` reaches `GUESSES` and the loop
exits). -/
def submit (words : List (List Char)) (solution : List Char) (s : Session)
    (line : List Char) : Session × SubmitOutcome :=
  if line = [] then (s, SubmitOutcome.ignored)
  else if line.length ≠ LETTERS then (s, SubmitOutcome.rejectedLength)
  else if valid words line = false then (s, SubmitOutcome.rejectedWord)
  else if check_correct solution line then
    ({ attempt := s.attempt, alphabet := updateAlphabet solution line s.alphabet },
      SubmitOutcome.won)
  else if s.attempt + 1 = GUESSES then
    ({ attempt := s.attempt + 1, alphabet := updateAlphabet solution line s.alphabet },
      SubmitOutcome.lost)
  else
    ({ attempt := s.attempt + 1, alphabet := updateAlphabet solution line s.alphabet },
      SubmitOutcome.continued)

/-- Observable session status, in the spec's state-machine terms. -/
inductive GStatus where
  | Playing (attempt : Nat)
  | Won
  | Lost
deriving DecidableEq, Repr

/-- The `main` loop of clidle.c over the list of available input lines (an
exhausted list models end-of-input: `readline` returns NULL and `main`
returns at once, without revealing).  Produces the status after each
processed line and the number of times the solution is revealed to the
player — the `printf("The word was: ...")` after the loop, reached exactly
when the last attempt is consumed without a win. -/
def runGame (words : List (List Char)) (solution : List Char) (s : Session) :
    List (List Char) → List GStatus × Nat
  | [] => ([], 0)
  | line :: rest =>
    match (submit words solution s line).2 with
    | SubmitOutcome.won => ([GStatus.Won], 0)
    | SubmitOutcome.lost => ([GStatus.Lost], 1)
    | _ =>
      (GStatus.Playing (submit words solution s line).1.attempt
          :: (runGame words solution (submit words solution s line).1 rest).1,
        (runGame words solution (submit words solution s line).1 rest).2)

/-- Helper: `qualify_guess` can only produce one of its three literal results,
never `Unknown`. -/
theorem qualify_ne_unknown (solution guess : List Char) (index : Nat) :
    qualify_guess solution guess index ≠ GuessQuality.Unknown := by
  unfold qualify_guess
  split
  · intro h; cases h
  · split
    · intro h; cases h
    · intro h; cases h

/-- Claim C1: for 5-letter `guess` and `solution` and a position `p < 5`,
`qualify_guess` returns `RightPlace` when `guess[p] = solution[p]`; otherwise
it returns `WrongPlace` exactly when some index `j < 5` has
`solution[j] = guess[p]` and `guess[j] ≠ solution[j]`; otherwise `Wrong`. -/
theorem qualify_guess_spec (guess solution : List Char) (p : Nat)
    (hg : guess.length = LETTERS) (hs : solution.length = LETTERS)
    (hp : p < LETTERS) :
    (guess.getD p default = solution.getD p default →
      qualify_guess solution guess p = GuessQuality.RightPlace)
    ∧ (guess.getD p default ≠ solution.getD p default →
        ((∃ j, j < LETTERS ∧ solution.getD j default = guess.getD p default
            ∧ guess.getD j default ≠ solution.getD j default) →
          qualify_guess solution guess p = GuessQuality.WrongPlace)
        ∧ (¬ (∃ j, j < LETTERS ∧ solution.getD j default = guess.getD p default
            ∧ guess.getD j default ≠ solution.getD j default) →
          qualify_guess solution guess p = GuessQuality.Wrong)) := by
  have hcond : (((List.range LETTERS).any (fun i =>
      solution.getD i default == guess.getD p default
        && guess.getD i default != guess.getD p default)) = true)
      ↔ (∃ j, j < LETTERS ∧ solution.getD j default = guess.getD p default
          ∧ guess.getD j default ≠ solution.getD j default) := by
    simp only [List.any_eq_true, List.mem_range, Bool.and_eq_true, beq_iff_eq,
      bne_iff_ne, ne_eq]
    constructor
    · rintro ⟨j, hj, hsol, hgj⟩
      exact ⟨j, hj, hsol, by rw [hsol]; exact hgj⟩
    · rintro ⟨j, hj, hsol, hgj⟩
      exact ⟨j, hj, hsol, by rw [← hsol]; exact hgj⟩
  refine ⟨fun h => ?_, fun hne => ⟨fun hex => ?_, fun hnex => ?_⟩⟩
  · unfold qualify_guess
    rw [if_pos h.symm]
  · unfold qualify_guess
    rw [if_neg (fun hc => hne hc.symm), if_pos (hcond.mpr hex)]
  · unfold qualify_guess
    rw [if_neg (fun hc => hne hc.symm), if_neg (fun hc => hnex (hcond.mp hc))]

/-- Witness for C1: spec scenario solution "crane", guess "trace", position 3
(`guess[3] = 'c'` occurs in the solution at index 0 where the guess has 't'),
giving `WrongPlace`. -/
theorem qualify_guess_spec_witness :
    qualify_guess ['c', 'r', 'a', 'n', 'e'] ['t', 'r', 'a', 'c', 'e'] 3
      = GuessQuality.WrongPlace :=
  ((qualify_guess_spec ['t', 'r', 'a', 'c', 'e'] ['c', 'r', 'a', 'n', 'e'] 3
      (by decide) (by decide) (by decide)).2
    (by decide)).1 ⟨0, by decide, by decide, by decide⟩

/-- Claim C2: decision table of `overrides` for a determined proposed quality:
a stored `RightPlace` is never overridden; stored `Unknown` and `Wrong` are
always overridden; stored `WrongPlace` is overridden only by `RightPlace`. -/
theorem overrides_table (proposed : GuessQuality)
    (h : proposed ≠ GuessQuality.Unknown) :
    overrides GuessQuality.RightPlace proposed = false
    ∧ overrides GuessQuality.Unknown proposed = true
    ∧ overrides GuessQuality.Wrong proposed = true
    ∧ overrides GuessQuality.WrongPlace GuessQuality.RightPlace = true
    ∧ overrides GuessQuality.WrongPlace GuessQuality.WrongPlace = false
    ∧ overrides GuessQuality.WrongPlace GuessQuality.Wrong = false := by
  cases proposed
  · decide
  · decide
  · decide
  · exact absurd rfl h

/-- Witness for C2: instantiated at `proposed = Wrong`. -/
theorem overrides_table_witness :
    overrides GuessQuality.RightPlace GuessQuality.Wrong = false
    ∧ overrides GuessQuality.Unknown GuessQuality.Wrong = true
    ∧ overrides GuessQuality.Wrong GuessQuality.Wrong = true
    ∧ overrides GuessQuality.WrongPlace GuessQuality.RightPlace = true
    ∧ overrides GuessQuality.WrongPlace GuessQuality.WrongPlace = false
    ∧ overrides GuessQuality.WrongPlace GuessQuality.Wrong = false :=
  overrides_table GuessQuality.Wrong (by decide)

/-- Helper: loop invariant of `lastIdxFrom` for an in-range entry index:
either no index `≤ i` holds `c` and the sentinel is returned, or the result is
the largest index `≤ i` holding `c`. -/
theorem lastIdxFrom_spec (c : Char) (s : List Char) :
    ∀ i : Nat, i < s.length →
      (lastIdxFrom c s i = SV_END_POS
          ∧ ∀ j, j ≤ i → s.getD j default ≠ c)
      ∨ (lastIdxFrom c s i < s.length ∧ lastIdxFrom c s i ≤ i
          ∧ s.getD (lastIdxFrom c s i) default = c
          ∧ ∀ j, lastIdxFrom c s i < j → j ≤ i → s.getD j default ≠ c) := by
  intro i
  induction i with
  | zero =>
    intro h0
    by_cases hc : s.get ⟨0, h0⟩ = c
    · right
      have hv : lastIdxFrom c s 0 = 0 := by
        simp only [lastIdxFrom]; rw [dif_pos h0, if_pos hc]
      rw [hv]
      refine ⟨h0, Nat.le_refl 0, ?_, ?_⟩
      · rw [List.getD_eq_getElem?_getD, List.getElem?_eq_getElem h0]
        simpa using hc
      · intro j hj hj0
        omega
    · left
      have hv : lastIdxFrom c s 0 = SV_END_POS := by
        simp only [lastIdxFrom]; rw [dif_pos h0, if_neg hc]
      refine ⟨hv, ?_⟩
      intro j hj
      interval_cases j
      rw [List.getD_eq_getElem?_getD, List.getElem?_eq_getElem h0]
      simpa using hc
  | succ i ih =>
    intro hsucc
    by_cases hc : s.get ⟨i + 1, hsucc⟩ = c
    · right
      have hv : lastIdxFrom c s (i + 1) = i + 1 := by
        simp only [lastIdxFrom]; rw [dif_pos hsucc, if_pos hc]
      rw [hv]
      refine ⟨hsucc, Nat.le_refl _, ?_, ?_⟩
      · rw [List.getD_eq_getElem?_getD, List.getElem?_eq_getElem hsucc]
        simpa using hc
      · intro j hj hj'
        omega
    · have hv : lastIdxFrom c s (i + 1) = lastIdxFrom c s i := by
        simp only [lastIdxFrom]; rw [dif_pos hsucc, if_neg hc]
      have hnot : s.getD (i + 1) default ≠ c := by
        rw [List.getD_eq_getElem?_getD, List.getElem?_eq_getElem hsucc]
        simpa using hc
      have hi : i < s.length := Nat.lt_of_succ_lt hsucc
      rcases ih hi with ⟨hsent, hall⟩ | ⟨hlt, hle, hval, hmax⟩
      · left
        refine ⟨hv.trans hsent, ?_⟩
        intro j hj
        rcases Nat.lt_or_ge j (i + 1) with hj' | hj'
        · exact hall j (Nat.lt_succ_iff.mp hj')
        · have : j = i + 1 := Nat.le_antisymm hj hj'
          rw [this]; exact hnot
      · right
        rw [hv]
        refine ⟨hlt, Nat.le_trans hle (Nat.le_succ i), hval, ?_⟩
        intro j hj hj'
        rcases Nat.lt_or_ge j (i + 1) with hj'' | hj''
        · exact hmax j hj (Nat.lt_succ_iff.mp hj'')
        · have : j = i + 1 := Nat.le_antisymm hj' hj''
          rw [this]; exact hnot

/-- Claim C9: `qualify_guess` never returns `Unknown`.  Consequently every
`overrides(current, proposed)` call made by `color_word_and_update_alphabet`
receives a determined `proposed` (its `assert(new != Unknown)` holds) and the
Unknown-proposed branch of the update logic is unreachable. -/
theorem qualify_guess_never_unknown (solution guess : List Char) (index : Nat) :
    qualify_guess solution guess index ≠ GuessQuality.Unknown :=
  qualify_ne_unknown solution guess index

/-- Claim C10: `sv_last_idx` applied to an empty slice returns the not-found
sentinel without inspecting any byte (the wrapped initial index `SIZE_MAX`
fails the loop guard at once); in general it is total — it is a terminating
function here — and reads bytes only through `List.get` at indices strictly
below the slice length, returning the largest index holding `c`, or the
sentinel when `c` is absent. -/
theorem sv_last_idx_spec :
    (∀ c : Char, sv_last_idx c [] = SV_END_POS)
    ∧ (∀ (c : Char) (s : List Char),
        (sv_last_idx c s = SV_END_POS ∧ ∀ j, j < s.length → s.getD j default ≠ c)
        ∨ (sv_last_idx c s < s.length ∧ s.getD (sv_last_idx c s) default = c
            ∧ ∀ j, sv_last_idx c s < j → j < s.length → s.getD j default ≠ c)) := by
  constructor
  · intro c; rfl
  · intro c s
    rcases Nat.eq_zero_or_pos s.length with h0 | hpos
    · left
      constructor
      · unfold sv_last_idx; rw [if_pos h0]
      · intro j hj; omega
    · have hlt : s.length - 1 < s.length := by omega
      have hval : sv_last_idx c s = lastIdxFrom c s (s.length - 1) := by
        unfold sv_last_idx; rw [if_neg (by omega)]
      rcases lastIdxFrom_spec c s (s.length - 1) hlt with ⟨hs, hall⟩ | ⟨h1, h2, h3, h4⟩
      · left
        exact ⟨hval.trans hs, fun j hj => hall j (by omega)⟩
      · right
        rw [hval]
        exact ⟨h1, h3, fun j hj hj' => h4 j hj (by omega)⟩

/-- Witness for C10: the empty-slice case at `c = 'x'`. -/
theorem sv_last_idx_spec_witness : sv_last_idx 'x' [] = SV_END_POS :=
  sv_last_idx_spec.1 'x'

/-- Counterexample to claim C4 as stated: with a slice of length 10, `beg = 5`
and the size_t value `len = 2^64 - 2` (not the to-end sentinel), the C sum
`beg + len` wraps to `3`, the clamp test `beg + len > in.len` is not
triggered, and the returned view has `offset + length = 2^64 + 3 > 10`: the
mathematical `begin + len` exceeds the slice length yet the result is not
clamped to the remaining length, and it does not lie within the original
slice's bounds. -/
theorem sv_substr_overflow_counterexample :
    5 < SIZE_T_MOD ∧ SIZE_T_MOD - 2 < SIZE_T_MOD ∧ SIZE_T_MOD - 2 ≠ SV_END_POS
    ∧ 5 + (SIZE_T_MOD - 2) > 10
    ∧ sv_substr 5 (SIZE_T_MOD - 2) 10 = (5, SIZE_T_MOD - 2)
    ∧ ¬ ((sv_substr 5 (SIZE_T_MOD - 2) 10).1 + (sv_substr 5 (SIZE_T_MOD - 2) 10).2 ≤ 10)
    ∧ (sv_substr 5 (SIZE_T_MOD - 2) 10).2 ≠ 10 - 5 := by
  refine ⟨?_, ?_, ?_, ?_, ?_, ?_, ?_⟩ <;> decide

/-- Claim C4 amended: for size_t arguments such that `len` is the to-end
sentinel or `beg + len` does not overflow `size_t`, `sv_substr` returns an
empty view when `len = 0` or `beg` exceeds the slice length `inLen`; clamps to
the remaining length `inLen - beg` when `len` is the sentinel or `beg + len`
exceeds `inLen`; and the returned view always lies within the original
slice's bounds: its start offset plus its length never exceeds `inLen`. -/
theorem sv_substr_spec (beg len inLen : Nat)
    (hbeg : beg < SIZE_T_MOD) (hlen : len < SIZE_T_MOD) (hin : inLen < SIZE_T_MOD)
    (hno : len = SV_END_POS ∨ beg + len < SIZE_T_MOD) :
    ((len = 0 ∨ beg > inLen) → sv_substr beg len inLen = (0, 0))
    ∧ (¬ (len = 0 ∨ beg > inLen) → (len = SV_END_POS ∨ beg + len > inLen) →
        sv_substr beg len inLen = (beg, inLen - beg))
    ∧ (¬ (len = 0 ∨ beg > inLen) → ¬ (len = SV_END_POS ∨ beg + len > inLen) →
        sv_substr beg len inLen = (beg, len))
    ∧ (sv_substr beg len inLen).1 + (sv_substr beg len inLen).2 ≤ inLen := by
  have hmod : len = SV_END_POS ∨ (beg + len) % SIZE_T_MOD = beg + len := by
    rcases hno with h | h
    · left; exact h
    · right; exact Nat.mod_eq_of_lt h
  refine ⟨fun h => ?_, fun h1 h2 => ?_, fun h1 h2 => ?_, ?_⟩
  · unfold sv_substr; rw [if_pos h]
  · unfold sv_substr
    rw [if_neg h1, if_pos ?_]
    rcases hmod with hm | hm
    · exact Or.inl hm
    · rcases h2 with h2 | h2
      · exact Or.inl h2
      · right; rw [hm]; exact h2
  · push_neg at h2
    unfold sv_substr
    rw [if_neg h1, if_neg ?_]
    rintro (hc | hc)
    · exact h2.1 hc
    · rcases hmod with hm | hm
      · exact h2.1 hm
      · rw [hm] at hc; omega
  · unfold sv_substr
    by_cases hA : len = 0 ∨ beg > inLen
    · rw [if_pos hA]; simp
    · rw [if_neg hA]
      push_neg at hA
      by_cases hB : len = SV_END_POS ∨ (beg + len) % SIZE_T_MOD > inLen
      · rw [if_pos hB]
        have : beg ≤ inLen := hA.2
        simp only
        omega
      · rw [if_neg hB]
        push_neg at hB
        rcases hmod with hm | hm
        · exact absurd hm hB.1
        · have := hB.2; rw [hm] at this
          simp only
          omega

/-- Witness for the amended C4: the to-end sentinel case `beg = 2`,
`len = SV_END_POS`, slice length 10 clamps to the remaining 8 bytes. -/
theorem sv_substr_spec_witness : sv_substr 2 SV_END_POS 10 = (2, 10 - 2) :=
  (sv_substr_spec 2 SV_END_POS 10 (by decide) (by decide) (by decide)
      (Or.inl rfl)).2.1 (by decide) (Or.inl rfl)

/-- Helper: case analysis of a successful `sv_chop_delim` call. -/
theorem chop_cases (delim : Char) (s out rest : List Char)
    (h : sv_chop_delim delim s = some (out, rest)) :
    s ≠ []
    ∧ ((firstDelim delim s < s.length
          ∧ out = s.take (firstDelim delim s)
          ∧ rest = s.drop (firstDelim delim s + delimRun delim s))
        ∨ (firstDelim delim s = s.length ∧ out = s ∧ rest = [])) := by
  unfold sv_chop_delim at h
  split at h
  · cases h
  · rename_i hnil
    refine ⟨hnil, ?_⟩
    split at h
    · rename_i hfound
      simp only [Option.some.injEq, Prod.mk.injEq] at h
      exact Or.inl ⟨hfound, h.1.symm, h.2.symm⟩
    · rename_i hnf
      simp only [Option.some.injEq, Prod.mk.injEq] at h
      refine Or.inr ⟨?_, h.1.symm, h.2.symm⟩
      exact Nat.le_antisymm (List.findIdx_le_length _) (Nat.le_of_not_lt hnf)

/-- Helper: on a successful call the remaining view is strictly shorter — the
same argument as in the `decreasing_by` of `svSplit`. -/
theorem chop_length_lt (delim : Char) (s out rest : List Char)
    (h : sv_chop_delim delim s = some (out, rest)) : rest.length < s.length := by
  obtain ⟨hnil, hcase⟩ := chop_cases delim s out rest h
  have hpos : 0 < s.length := List.length_pos.mpr hnil
  rcases hcase with ⟨hfound, -, hrest⟩ | ⟨-, -, hrest⟩
  · subst hrest
    have hrun : 1 ≤ delimRun delim s := by
      unfold delimRun
      rw [List.drop_eq_getElem_cons hfound, List.takeWhile_cons]
      have hp : (s[firstDelim delim s] == delim) = true := by
        simpa using @List.findIdx_getElem Char (fun ch => ch == delim) s hfound
      rw [hp]
      simp
    rw [List.length_drop]
    omega
  · subst hrest
    simpa using hpos

/-- Helper: `p` holds at the first-occurrence index, `getD` form. -/
theorem findIdx_getD (p : Char → Bool) (l : List Char)
    (h : l.findIdx p < l.length) : p (l.getD (l.findIdx p) default) = true := by
  rw [List.getD_eq_getElem?_getD, List.getElem?_eq_getElem h]
  simpa using @List.findIdx_getElem Char p l h

/-- Helper: an element satisfying `p` does not occur before the first
`p`-occurrence, so not in `take (findIdx p)`. -/
theorem not_mem_take_findIdx (p : Char → Bool) (x : Char) (hx : p x = true) :
    ∀ l : List Char, x ∉ l.take (l.findIdx p) := by
  intro l
  induction l with
  | nil => simp
  | cons a l ih =>
    rw [List.findIdx_cons]
    by_cases hpa : p a = true
    · rw [hpa]
      simp
    · rw [Bool.eq_false_iff.mpr hpa]
      simp only [cond_false, List.take_succ_cons, List.mem_cons, not_or]
      refine ⟨?_, ih⟩
      intro hcon
      subst hcon
      exact hpa hx

/-- Helper: `getD` through `drop`. -/
theorem getD_drop (s : List Char) (n m : Nat) :
    (s.drop n).getD m default = s.getD (n + m) default := by
  rw [List.getD_eq_getElem?_getD, List.getD_eq_getElem?_getD, List.getElem?_drop]

/-- Helper: the element just after the `takeWhile` prefix fails `p`. -/
theorem takeWhile_stop (p : Char → Bool) :
    ∀ l : List Char, (l.takeWhile p).length < l.length →
      p (l.getD (l.takeWhile p).length default) = false := by
  intro l
  induction l with
  | nil => intro h; simp at h
  | cons a l ih =>
    intro h
    rw [List.takeWhile_cons] at h ⊢
    by_cases hpa : p a = true
    · rw [if_pos hpa] at h ⊢
      rw [List.length_cons] at h ⊢
      rw [List.getD_cons_succ]
      exact ih (Nat.lt_of_succ_lt_succ h)
    · rw [if_neg hpa] at h ⊢
      rw [List.length_nil, List.getD_cons_zero]
      exact Bool.eq_false_iff.mpr hpa

/-- Helper: the yielded element of a successful call contains no delimiter. -/
theorem chop_out_no_delim (delim : Char) (s out rest : List Char)
    (h : sv_chop_delim delim s = some (out, rest)) : delim ∉ out := by
  obtain ⟨hnil, hcase⟩ := chop_cases delim s out rest h
  rcases hcase with ⟨hfound, hout, -⟩ | ⟨hlen, hout, -⟩
  · subst hout
    exact not_mem_take_findIdx (fun ch => ch == delim) delim (by simp) s
  · subst hout
    intro hmem
    have := List.findIdx_eq_length.mp hlen delim hmem
    simp at this

/-- Helper: the yielded element is empty only when the view begins with the
delimiter. -/
theorem chop_out_empty_head (delim : Char) (s out rest : List Char)
    (h : sv_chop_delim delim s = some (out, rest)) (hout : out = []) :
    s.getD 0 default = delim := by
  obtain ⟨hnil, hcase⟩ := chop_cases delim s out rest h
  rcases hcase with ⟨hfound, hout', -⟩ | ⟨-, hout', -⟩
  · subst hout'
    rw [List.take_eq_nil_iff] at hout
    rcases hout with hi0 | hsnil
    · have hp := findIdx_getD (fun ch => ch == delim) s (by unfold firstDelim at hfound; exact hfound)
      rw [show s.findIdx (fun ch => ch == delim) = firstDelim delim s from rfl, hi0] at hp
      simpa using hp
    · exact absurd hsnil hnil
  · subst hout'
    exact absurd hout hnil

/-- Helper: after a successful call the remaining view is empty or starts
with a non-delimiter byte — the inner loop consumed the entire run. -/
theorem chop_rest_head (delim : Char) (s out rest : List Char)
    (h : sv_chop_delim delim s = some (out, rest)) :
    rest = [] ∨ rest.getD 0 default ≠ delim := by
  obtain ⟨hnil, hcase⟩ := chop_cases delim s out rest h
  rcases hcase with ⟨hfound, -, hrest⟩ | ⟨-, -, hrest⟩
  · subst hrest
    by_cases hlen : firstDelim delim s + delimRun delim s < s.length
    · right
      rw [getD_drop]
      rw [Nat.add_zero]
      have hjlt : delimRun delim s < (s.drop (firstDelim delim s)).length := by
        rw [List.length_drop]
        omega
      have hstop := takeWhile_stop (fun ch => ch == delim)
        (s.drop (firstDelim delim s)) hjlt
      rw [show ((s.drop (firstDelim delim s)).takeWhile (fun ch => ch == delim)).length
          = delimRun delim s from rfl] at hstop
      rw [getD_drop] at hstop
      intro hcon
      rw [hcon] at hstop
      simp at hstop
    · left
      exact List.drop_eq_nil_of_le (Nat.le_of_not_lt hlen)
  · subst hrest
    exact Or.inl rfl

/-- Helper: the split of an empty view is empty. -/
theorem svSplit_nil (delim : Char) : svSplit delim [] = [] := by
  rw [svSplit.eq_def]
  rfl

/-- Helper: no element produced by `svSplit` contains the delimiter
(fuel-indexed induction along the decreasing view length). -/
theorem svSplit_no_delim_aux (delim : Char) :
    ∀ (n : Nat) (s : List Char), s.length ≤ n → ∀ e ∈ svSplit delim s, delim ∉ e := by
  intro n
  induction n with
  | zero =>
    intro s hs e he
    rw [List.eq_nil_of_length_eq_zero (Nat.le_zero.mp hs), svSplit_nil] at he
    simp at he
  | succ n ih =>
    intro s hs e he
    rw [svSplit.eq_def] at he
    split at he
    · simp at he
    · rename_i out rest heq
      rcases List.mem_cons.mp he with rfl | hmem
      · exact chop_out_no_delim delim s e rest heq
      · exact ih rest
          (by have := chop_length_lt delim s out rest heq; omega) e hmem

/-- Helper: if the view is empty or starts with a non-delimiter byte, every
element produced by `svSplit` is non-empty. -/
theorem svSplit_nonempty_aux (delim : Char) :
    ∀ (n : Nat) (s : List Char), s.length ≤ n →
      (s = [] ∨ s.getD 0 default ≠ delim) → ∀ e ∈ svSplit delim s, e ≠ [] := by
  intro n
  induction n with
  | zero =>
    intro s hs hhead e he
    rw [List.eq_nil_of_length_eq_zero (Nat.le_zero.mp hs), svSplit_nil] at he
    simp at he
  | succ n ih =>
    intro s hs hhead e he
    rcases hhead with rfl | hhead
    · rw [svSplit_nil] at he
      simp at he
    · rw [svSplit.eq_def] at he
      split at he
      · simp at he
      · rename_i out rest heq
        rcases List.mem_cons.mp he with rfl | hmem
        · intro hcon
          exact hhead (chop_out_empty_head delim s e rest heq hcon)
        · exact ih rest
            (by have := chop_length_lt delim s out rest heq; omega)
            (chop_rest_head delim s out rest heq) e hmem

/-- Claim C8: `sv_chop_delim` returns `false` (`none`) exactly when the input
view is empty, and every `true` (`some`) return strictly decreases the length
of the input view; hence every loop that repeatedly applies it — the corpus
tokenization loops (`init_words`, `choose_solution`), modelled by `svSplit` —
terminates after finitely many iterations, which is also the well-founded
measure `svSplit` recurses on. -/
theorem sv_chop_delim_progress :
    (∀ (delim : Char) (s : List Char), sv_chop_delim delim s = none ↔ s = [])
    ∧ (∀ (delim : Char) (s out rest : List Char),
        sv_chop_delim delim s = some (out, rest) → rest.length < s.length) := by
  constructor
  · intro delim s
    constructor
    · intro h
      by_contra hnil
      unfold sv_chop_delim at h
      rw [if_neg hnil] at h
      split at h <;> simp at h
    · intro h
      subst h
      rfl
  · exact fun delim s out rest h => chop_length_lt delim s out rest h

/-- Witness for C8: chopping "a\nb" at newline yields "b", strictly shorter
than the three input bytes. -/
theorem sv_chop_delim_progress_witness :
    (['b'] : List Char).length < (['a', '\n', 'b'] : List Char).length :=
  sv_chop_delim_progress.2 '\n' ['a', '\n', 'b'] ['a'] ['b'] (by decide)

/-- Counterexample to claim C3 as stated: the non-empty slice "\ncat" begins
with a delimiter run, yet the first `sv_chop_delim` call does not consume it
before yielding; it yields the empty element in front of it (`out->len = i`
with `i = 0`), so the split of a non-empty slice can contain an empty
element. -/
theorem sv_chop_delim_leading_empty :
    sv_chop_delim '\n' ['\n', 'c', 'a', 't'] = some ([], ['c', 'a', 't'])
    ∧ ([] : List Char) ∈ svSplit '\n' ['\n', 'c', 'a', 't'] := by
  have h1 : sv_chop_delim '\n' ['\n', 'c', 'a', 't'] = some ([], ['c', 'a', 't']) := by
    decide
  have h2 : sv_chop_delim '\n' ['c', 'a', 't'] = some (['c', 'a', 't'], []) := by
    decide
  have e1 : svSplit '\n' ['c', 'a', 't'] = [['c', 'a', 't']] := by
    rw [svSplit.eq_def, h2]
    show ['c', 'a', 't'] :: svSplit '\n' [] = [['c', 'a', 't']]
    rw [svSplit_nil]
  have e2 : svSplit '\n' ['\n', 'c', 'a', 't'] = [[], ['c', 'a', 't']] := by
    rw [svSplit.eq_def, h1]
    show ([] : List Char) :: svSplit '\n' ['c', 'a', 't'] = [[], ['c', 'a', 't']]
    rw [e1]
  exact ⟨h1, by rw [e2]; simp⟩

/-- Claim C3 amended: each successful `sv_chop_delim` call yields the bytes
strictly before the first delimiter run and then consumes that entire run
(the remaining view is empty or starts with a non-delimiter), so consecutive
delimiters act as a single separator; no yielded element contains the
delimiter; a yielded element is empty only when the view it was chopped from
begins with the delimiter — in particular all elements after the first are
non-empty, and all elements are non-empty whenever the slice does not begin
with the delimiter; and splitting "cat\ndog\n\nbird" on the newline yields
exactly "cat", "dog", "bird". -/
theorem svSplit_spec :
    (∀ (delim : Char) (s out rest : List Char),
        sv_chop_delim delim s = some (out, rest) →
          delim ∉ out
          ∧ (out = [] → s.getD 0 default = delim)
          ∧ (rest = [] ∨ rest.getD 0 default ≠ delim))
    ∧ (∀ (delim : Char) (s : List Char), ∀ e ∈ svSplit delim s, delim ∉ e)
    ∧ (∀ (delim : Char) (s : List Char), ∀ e ∈ (svSplit delim s).drop 1, e ≠ [])
    ∧ (∀ (delim : Char) (s : List Char), s.getD 0 default ≠ delim →
        ∀ e ∈ svSplit delim s, e ≠ [])
    ∧ svSplit '\n' ['c', 'a', 't', '\n', 'd', 'o', 'g', '\n', '\n', 'b', 'i', 'r', 'd']
        = [['c', 'a', 't'], ['d', 'o', 'g'], ['b', 'i', 'r', 'd']] := by
  refine ⟨?_, ?_, ?_, ?_, ?_⟩
  · intro delim s out rest h
    exact ⟨chop_out_no_delim delim s out rest h,
      fun hout => chop_out_empty_head delim s out rest h hout,
      chop_rest_head delim s out rest h⟩
  · intro delim s
    exact svSplit_no_delim_aux delim s.length s (Nat.le_refl _)
  · intro delim s e he
    rw [svSplit.eq_def] at he
    split at he
    · simp at he
    · rename_i out rest heq
      rw [List.drop_succ_cons, List.drop_zero] at he
      exact svSplit_nonempty_aux delim rest.length rest (Nat.le_refl _)
        (chop_rest_head delim s out rest heq) e he
  · intro delim s hhead
    exact svSplit_nonempty_aux delim s.length s (Nat.le_refl _) (Or.inr hhead)
  · have c1 : sv_chop_delim '\n'
        ['c', 'a', 't', '\n', 'd', 'o', 'g', '\n', '\n', 'b', 'i', 'r', 'd']
        = some (['c', 'a', 't'], ['d', 'o', 'g', '\n', '\n', 'b', 'i', 'r', 'd']) := by
      decide
    have c2 : sv_chop_delim '\n' ['d', 'o', 'g', '\n', '\n', 'b', 'i', 'r', 'd']
        = some (['d', 'o', 'g'], ['b', 'i', 'r', 'd']) := by
      decide
    have c3 : sv_chop_delim '\n' ['b', 'i', 'r', 'd']
        = some (['b', 'i', 'r', 'd'], []) := by
      decide
    have e3 : svSplit '\n' ['b', 'i', 'r', 'd'] = [['b', 'i', 'r', 'd']] := by
      rw [svSplit.eq_def, c3]
      show ['b', 'i', 'r', 'd'] :: svSplit '\n' [] = [['b', 'i', 'r', 'd']]
      rw [svSplit_nil]
    have e2 : svSplit '\n' ['d', 'o', 'g', '\n', '\n', 'b', 'i', 'r', 'd']
        = [['d', 'o', 'g'], ['b', 'i', 'r', 'd']] := by
      rw [svSplit.eq_def, c2]
      show ['d', 'o', 'g'] :: svSplit '\n' ['b', 'i', 'r', 'd']
          = [['d', 'o', 'g'], ['b', 'i', 'r', 'd']]
      rw [e3]
    rw [svSplit.eq_def, c1]
    show ['c', 'a', 't'] :: svSplit '\n' ['d', 'o', 'g', '\n', '\n', 'b', 'i', 'r', 'd']
        = [['c', 'a', 't'], ['d', 'o', 'g'], ['b', 'i', 'r', 'd']]
    rw [e2]

/-- Witness for the amended C3: chopping "cat\ndog" yields "cat", which does
not contain the delimiter. -/
theorem svSplit_spec_witness :
    '\n' ∉ (['c', 'a', 't'] : List Char) :=
  (svSplit_spec.1 '\n' ['c', 'a', 't', '\n', 'd', 'o', 'g'] ['c', 'a', 't']
    ['d', 'o', 'g'] (by decide)).1

/-- Claim C6: a submitted guess whose length differs from `LETTERS` or which
is not in the valid-guess corpus is rejected with the corresponding
classification ("Wrong length" / "Not in word list"), and the session —
attempt counter and alphabet state — is left unchanged: rejection happens
strictly before any mutation, and the session remains `Playing` at its prior
attempt.  (An empty line is not a submitted guess: the source ignores it
before the length check, also without mutation, which the first conjunct
covers.) -/
theorem submit_reject_spec (words : List (List Char)) (solution : List Char)
    (s : Session) (line : List Char)
    (h : line.length ≠ LETTERS ∨ valid words line = false) :
    (submit words solution s line).1 = s
    ∧ (line ≠ [] → line.length ≠ LETTERS →
        (submit words solution s line).2 = SubmitOutcome.rejectedLength)
    ∧ (line.length = LETTERS → valid words line = false →
        (submit words solution s line).2 = SubmitOutcome.rejectedWord)
    ∧ (∀ rest, runGame words solution s (line :: rest)
        = (GStatus.Playing s.attempt :: (runGame words solution s rest).1,
            (runGame words solution s rest).2)) := by
  by_cases hnil : line = []
  · subst hnil
    have hsub : submit words solution s [] = (s, SubmitOutcome.ignored) := by
      simp [submit]
    refine ⟨by rw [hsub], ?_, ?_, ?_⟩
    · intro hcon
      exact absurd rfl hcon
    · intro hcon
      exact absurd hcon (by decide)
    · intro rest
      simp [runGame, hsub]
  · by_cases hlen : line.length = LETTERS
    · have hval : valid words line = false := by
        rcases h with h | h
        · exact absurd hlen h
        · exact h
      have hsub : submit words solution s line = (s, SubmitOutcome.rejectedWord) := by
        simp [submit, hnil, hlen, hval]
      refine ⟨by rw [hsub], ?_, ?_, ?_⟩
      · intro _ hcon
        exact absurd hlen hcon
      · intro _ _
        rw [hsub]
      · intro rest
        simp [runGame, hsub]
    · have hsub : submit words solution s line = (s, SubmitOutcome.rejectedLength) := by
        simp [submit, hnil, hlen]
      refine ⟨by rw [hsub], ?_, ?_, ?_⟩
      · intro _ _
        rw [hsub]
      · intro hcon
        exact absurd hcon hlen
      · intro rest
        simp [runGame, hsub]

/-- Witness for C6: the spec's scenario of a 4-letter guess against the
corpus containing only "crane": the session is unchanged and the guess is
classified as a length rejection. -/
theorem submit_reject_spec_witness :
    (submit [['c', 'r', 'a', 'n', 'e']] ['c', 'r', 'a', 'n', 'e']
        ⟨0, init_alphabet⟩ ['a', 'b', 'c', 'd']).1 = ⟨0, init_alphabet⟩
    ∧ (submit [['c', 'r', 'a', 'n', 'e']] ['c', 'r', 'a', 'n', 'e']
        ⟨0, init_alphabet⟩ ['a', 'b', 'c', 'd']).2 = SubmitOutcome.rejectedLength := by
  have h := submit_reject_spec [['c', 'r', 'a', 'n', 'e']] ['c', 'r', 'a', 'n', 'e']
    ⟨0, init_alphabet⟩ ['a', 'b', 'c', 'd'] (Or.inl (by decide))
  exact ⟨h.1, h.2.1 (by decide) (by decide)⟩

/-- Helper: a true `overrides` with a determined proposal never decreases the
priority rank. -/
theorem overrides_rank_le (a q : GuessQuality) (hq : q ≠ GuessQuality.Unknown)
    (h : overrides a q = true) : qualityRank a ≤ qualityRank q := by
  cases a <;> cases q <;>
    first
      | decide
      | exact absurd rfl hq
      | simp [overrides] at h

/-- Helper: a single conditional overwrite of `color_word_and_update_alphabet`
never decreases the stored rank at any alphabet position. -/
theorem updateStep_mono (solution guess : List Char) (a : List GuessQuality)
    (k i : Nat) :
    qualityRank (a.getD i GuessQuality.Unknown)
      ≤ qualityRank ((updateStep solution guess a k).getD i GuessQuality.Unknown) := by
  unfold updateStep
  set q := qualify_guess solution guess k with hqdef
  set idx := (guess.getD k default).toNat - ASCII_A with hidxdef
  by_cases hov : overrides (a.getD idx GuessQuality.Unknown) q = true
  · rw [if_pos hov]
    by_cases hii : idx = i
    · by_cases hlt : idx < a.length
      · have hset : (a.set idx q).getD i GuessQuality.Unknown = q := by
          rw [List.getD_eq_getElem?_getD, List.getElem?_set, if_pos hii, if_pos hlt]
          rfl
        rw [hset, ← hii]
        exact overrides_rank_le _ _ (qualify_ne_unknown solution guess k) hov
      · rw [List.set_eq_of_length_le (Nat.le_of_not_lt hlt)]
    · have hset : (a.set idx q).getD i GuessQuality.Unknown
          = a.getD i GuessQuality.Unknown := by
        rw [List.getD_eq_getElem?_getD, List.getD_eq_getElem?_getD,
          List.getElem?_set, if_neg hii]
      rw [hset]
  · rw [if_neg hov]

/-- Helper: folding conditional overwrites never decreases the stored rank. -/
theorem foldl_updateStep_mono (solution guess : List Char) :
    ∀ (l : List Nat) (a : List GuessQuality) (i : Nat),
      qualityRank (a.getD i GuessQuality.Unknown)
        ≤ qualityRank ((l.foldl (updateStep solution guess) a).getD i
            GuessQuality.Unknown) := by
  intro l
  induction l with
  | nil =>
    intro a i
    exact Nat.le_refl _
  | cons x l ih =>
    intro a i
    rw [List.foldl_cons]
    exact Nat.le_trans (updateStep_mono solution guess a x i) (ih _ i)

/-- Claim C7: the stored quality of every alphabet letter never decreases in
the priority order Unknown < Wrong < WrongPlace < RightPlace: a single
conditional overwrite with a determined proposal either leaves the stored
quality unchanged or replaces it with a strictly higher one; one full guess
update (`color_word_and_update_alphabet`, whose proposals come from
`qualify_guess` and are always determined) never decreases any letter's rank;
and the same holds across any sequence of guesses. -/
theorem alphabet_monotone :
    (∀ a q : GuessQuality, q ≠ GuessQuality.Unknown →
        applyOverride a q = a ∨ qualityRank a < qualityRank (applyOverride a q))
    ∧ (∀ (solution guess : List Char) (a : List GuessQuality) (i : Nat),
        qualityRank (a.getD i GuessQuality.Unknown)
          ≤ qualityRank ((updateAlphabet solution guess a).getD i GuessQuality.Unknown))
    ∧ (∀ (solution : List Char) (gs : List (List Char)) (a : List GuessQuality)
        (i : Nat),
        qualityRank (a.getD i GuessQuality.Unknown)
          ≤ qualityRank ((gs.foldl (fun acc g => updateAlphabet solution g acc)
              a).getD i GuessQuality.Unknown)) := by
  refine ⟨?_, ?_, ?_⟩
  · intro a q hq
    cases a <;> cases q <;>
      first
        | decide
        | exact absurd rfl hq
  · intro solution guess a i
    unfold updateAlphabet
    exact foldl_updateStep_mono solution guess (List.range LETTERS) a i
  · intro solution gs
    induction gs with
    | nil =>
      intro a i
      exact Nat.le_refl _
    | cons g gs ih =>
      intro a i
      rw [List.foldl_cons]
      refine Nat.le_trans ?_ (ih (updateAlphabet solution g a) i)
      unfold updateAlphabet
      exact foldl_updateStep_mono solution g (List.range LETTERS) a i

/-- Witness for C7: a stored `Unknown` overwritten by a proposed `Wrong`
strictly increases the rank. -/
theorem alphabet_monotone_witness :
    qualityRank GuessQuality.Unknown
      < qualityRank (applyOverride GuessQuality.Unknown GuessQuality.Wrong) :=
  (alphabet_monotone.1 GuessQuality.Unknown GuessQuality.Wrong
    (by decide)).resolve_left (by decide)

/-- Helper: a valid guess different from the solution updates the alphabet
and consumes one attempt; it loses the game exactly when that was the last
attempt. -/
theorem submit_valid_wrong (words : List (List Char)) (solution : List Char)
    (s : Session) (g : List Char) (hlen : g.length = LETTERS)
    (hval : valid words g = true) (hne : g ≠ solution) :
    submit words solution s g
      = ({ attempt := s.attempt + 1,
            alphabet := updateAlphabet solution g s.alphabet },
          if s.attempt + 1 = GUESSES then SubmitOutcome.lost
          else SubmitOutcome.continued) := by
  have hnil : g ≠ [] := by
    intro hcon
    rw [hcon] at hlen
    exact absurd hlen (by decide)
  have hcc : check_correct solution g = false := by
    unfold check_correct sv_cstr_eq
    rw [beq_eq_false_iff_ne]
    exact fun hcon => hne hcon.symm
  by_cases hat : s.attempt + 1 = GUESSES
  · simp [submit, hnil, hlen, hval, hcc, hat]
  · simp [submit, hnil, hlen, hval, hcc, hat]

/-- Helper: in any run the solution is revealed at most once, and exactly
when the status trace ends in `Lost`. -/
theorem runGame_reveal (words : List (List Char)) (solution : List Char) :
    ∀ (inputs : List (List Char)) (s : Session),
      (runGame words solution s inputs).2 ≤ 1
      ∧ ((runGame words solution s inputs).2 = 1
          ↔ (runGame words solution s inputs).1.getLast? = some GStatus.Lost) := by
  intro inputs
  induction inputs with
  | nil =>
    intro s
    constructor
    · simp [runGame]
    · simp [runGame]
  | cons line rest ih =>
    intro s
    cases hout : (submit words solution s line).2 with
    | won =>
      have hrw : runGame words solution s (line :: rest) = ([GStatus.Won], 0) := by
        simp [runGame, hout]
      rw [hrw]
      simp
    | lost =>
      have hrw : runGame words solution s (line :: rest) = ([GStatus.Lost], 1) := by
        simp [runGame, hout]
      rw [hrw]
      simp
    | ignored =>
      have hrw : runGame words solution s (line :: rest)
          = (GStatus.Playing (submit words solution s line).1.attempt
              :: (runGame words solution (submit words solution s line).1 rest).1,
            (runGame words solution (submit words solution s line).1 rest).2) := by
        simp [runGame, hout]
      rw [hrw]
      obtain ⟨iha, ihb⟩ := ih (submit words solution s line).1
      refine ⟨iha, ?_⟩
      cases hgl : (runGame words solution (submit words solution s line).1 rest).1 with
      | nil =>
        rw [hgl] at ihb
        simp only [List.getLast?_nil] at ihb
        constructor
        · intro hcon
          exact absurd (ihb.mp hcon) (by simp)
        · intro hcon
          simp at hcon
      | cons y ys =>
        rw [hgl] at ihb
        simpa only [List.getLast?_cons_cons] using ihb
    | rejectedLength =>
      have hrw : runGame words solution s (line :: rest)
          = (GStatus.Playing (submit words solution s line).1.attempt
              :: (runGame words solution (submit words solution s line).1 rest).1,
            (runGame words solution (submit words solution s line).1 rest).2) := by
        simp [runGame, hout]
      rw [hrw]
      obtain ⟨iha, ihb⟩ := ih (submit words solution s line).1
      refine ⟨iha, ?_⟩
      cases hgl : (runGame words solution (submit words solution s line).1 rest).1 with
      | nil =>
        rw [hgl] at ihb
        simp only [List.getLast?_nil] at ihb
        constructor
        · intro hcon
          exact absurd (ihb.mp hcon) (by simp)
        · intro hcon
          simp at hcon
      | cons y ys =>
        rw [hgl] at ihb
        simpa only [List.getLast?_cons_cons] using ihb
    | rejectedWord =>
      have hrw : runGame words solution s (line :: rest)
          = (GStatus.Playing (submit words solution s line).1.attempt
              :: (runGame words solution (submit words solution s line).1 rest).1,
            (runGame words solution (submit words solution s line).1 rest).2) := by
        simp [runGame, hout]
      rw [hrw]
      obtain ⟨iha, ihb⟩ := ih (submit words solution s line).1
      refine ⟨iha, ?_⟩
      cases hgl : (runGame words solution (submit words solution s line).1 rest).1 with
      | nil =>
        rw [hgl] at ihb
        simp only [List.getLast?_nil] at ihb
        constructor
        · intro hcon
          exact absurd (ihb.mp hcon) (by simp)
        · intro hcon
          simp at hcon
      | cons y ys =>
        rw [hgl] at ihb
        simpa only [List.getLast?_cons_cons] using ihb
    | continued =>
      have hrw : runGame words solution s (line :: rest)
          = (GStatus.Playing (submit words solution s line).1.attempt
              :: (runGame words solution (submit words solution s line).1 rest).1,
            (runGame words solution (submit words solution s line).1 rest).2) := by
        simp [runGame, hout]
      rw [hrw]
      obtain ⟨iha, ihb⟩ := ih (submit words solution s line).1
      refine ⟨iha, ?_⟩
      cases hgl : (runGame words solution (submit words solution s line).1 rest).1 with
      | nil =>
        rw [hgl] at ihb
        simp only [List.getLast?_nil] at ihb
        constructor
        · intro hcon
          exact absurd (ihb.mp hcon) (by simp)
        · intro hcon
          simp at hcon
      | cons y ys =>
        rw [hgl] at ihb
        simpa only [List.getLast?_cons_cons] using ihb

/-- Claim C5: starting from `Playing 0`, a run of six consecutive valid
guesses each differing from the solution drives the session through
`Playing 1, …, Playing 5` and then to `Lost`, and the solution is revealed
exactly once, only on that final transition; in general the reveal count of
any run is at most one and equals one exactly when the status trace ends in
`Lost` — in particular nothing is revealed on `Won` or on end-of-input. -/
theorem game_lost_run (words : List (List Char)) (solution : List Char)
    (α : List GuessQuality) (g1 g2 g3 g4 g5 g6 : List Char)
    (h1 : g1.length = LETTERS ∧ valid words g1 = true ∧ g1 ≠ solution)
    (h2 : g2.length = LETTERS ∧ valid words g2 = true ∧ g2 ≠ solution)
    (h3 : g3.length = LETTERS ∧ valid words g3 = true ∧ g3 ≠ solution)
    (h4 : g4.length = LETTERS ∧ valid words g4 = true ∧ g4 ≠ solution)
    (h5 : g5.length = LETTERS ∧ valid words g5 = true ∧ g5 ≠ solution)
    (h6 : g6.length = LETTERS ∧ valid words g6 = true ∧ g6 ≠ solution) :
    runGame words solution ⟨0, α⟩ [g1, g2, g3, g4, g5, g6]
      = ([GStatus.Playing 1, GStatus.Playing 2, GStatus.Playing 3,
          GStatus.Playing 4, GStatus.Playing 5, GStatus.Lost], 1)
    ∧ (∀ (s : Session) (inputs : List (List Char)),
        (runGame words solution s inputs).2 ≤ 1
        ∧ ((runGame words solution s inputs).2 = 1
            ↔ (runGame words solution s inputs).1.getLast?
                = some GStatus.Lost)) := by
  refine ⟨?_, fun s inputs => runGame_reveal words solution inputs s⟩
  have e1 : submit words solution ⟨0, α⟩ g1
      = (⟨1, updateAlphabet solution g1 α⟩, SubmitOutcome.continued) := by
    rw [submit_valid_wrong words solution ⟨0, α⟩ g1 h1.1 h1.2.1 h1.2.2]
    simp [GUESSES]
  have e2 : submit words solution ⟨1, updateAlphabet solution g1 α⟩ g2
      = (⟨2, updateAlphabet solution g2 (updateAlphabet solution g1 α)⟩,
          SubmitOutcome.continued) := by
    rw [submit_valid_wrong words solution _ g2 h2.1 h2.2.1 h2.2.2]
    simp [GUESSES]
  have e3 : submit words solution
      ⟨2, updateAlphabet solution g2 (updateAlphabet solution g1 α)⟩ g3
      = (⟨3, updateAlphabet solution g3 (updateAlphabet solution g2
            (updateAlphabet solution g1 α))⟩, SubmitOutcome.continued) := by
    rw [submit_valid_wrong words solution _ g3 h3.1 h3.2.1 h3.2.2]
    simp [GUESSES]
  have e4 : submit words solution
      ⟨3, updateAlphabet solution g3 (updateAlphabet solution g2
          (updateAlphabet solution g1 α))⟩ g4
      = (⟨4, updateAlphabet solution g4 (updateAlphabet solution g3
            (updateAlphabet solution g2 (updateAlphabet solution g1 α)))⟩,
          SubmitOutcome.continued) := by
    rw [submit_valid_wrong words solution _ g4 h4.1 h4.2.1 h4.2.2]
    simp [GUESSES]
  have e5 : submit words solution
      ⟨4, updateAlphabet solution g4 (updateAlphabet solution g3
          (updateAlphabet solution g2 (updateAlphabet solution g1 α)))⟩ g5
      = (⟨5, updateAlphabet solution g5 (updateAlphabet solution g4
            (updateAlphabet solution g3 (updateAlphabet solution g2
              (updateAlphabet solution g1 α))))⟩, SubmitOutcome.continued) := by
    rw [submit_valid_wrong words solution _ g5 h5.1 h5.2.1 h5.2.2]
    simp [GUESSES]
  have e6 : submit words solution
      ⟨5, updateAlphabet solution g5 (updateAlphabet solution g4
          (updateAlphabet solution g3 (updateAlphabet solution g2
            (updateAlphabet solution g1 α))))⟩ g6
      = (⟨6, updateAlphabet solution g6 (updateAlphabet solution g5
            (updateAlphabet solution g4 (updateAlphabet solution g3
              (updateAlphabet solution g2 (updateAlphabet solution g1 α)))))⟩,
          SubmitOutcome.lost) := by
    rw [submit_valid_wrong words solution _ g6 h6.1 h6.2.1 h6.2.2]
    simp [GUESSES]
  simp only [runGame, e1, e2, e3, e4, e5, e6]

/-- Witness for C5: solution "crane", six valid non-matching guesses from a
six-word corpus. -/
theorem game_lost_run_witness :
    runGame
        [['t', 'r', 'a', 'c', 'e'], ['s', 'l', 'a', 't', 'e'],
         ['b', 'r', 'i', 'c', 'k'], ['g', 'r', 'a', 'v', 'y'],
         ['p', 'o', 'u', 'n', 'd'], ['w', 'h', 'a', 'c', 'k']]
        ['c', 'r', 'a', 'n', 'e'] ⟨0, init_alphabet⟩
        [['t', 'r', 'a', 'c', 'e'], ['s', 'l', 'a', 't', 'e'],
         ['b', 'r', 'i', 'c', 'k'], ['g', 'r', 'a', 'v', 'y'],
         ['p', 'o', 'u', 'n', 'd'], ['w', 'h', 'a', 'c', 'k']]
      = ([GStatus.Playing 1, GStatus.Playing 2, GStatus.Playing 3,
          GStatus.Playing 4, GStatus.Playing 5, GStatus.Lost], 1) :=
  (game_lost_run
    [['t', 'r', 'a', 'c', 'e'], ['s', 'l', 'a', 't', 'e'],
     ['b', 'r', 'i', 'c', 'k'], ['g', 'r', 'a', 'v', 'y'],
     ['p', 'o', 'u', 'n', 'd'], ['w', 'h', 'a', 'c', 'k']]
    ['c', 'r', 'a', 'n', 'e'] init_alphabet
    ['t', 'r', 'a', 'c', 'e'] ['s', 'l', 'a', 't', 'e'] ['b', 'r', 'i', 'c', 'k']
    ['g', 'r', 'a', 'v', 'y'] ['p', 'o', 'u', 'n', 'd'] ['w', 'h', 'a', 'c', 'k']
    (by decide) (by decide) (by decide) (by decide) (by decide) (by decide)).1

end Clidle
